import Mathlib

/-!
Shallow embedding of the interval-processing core of the repository
(`src/src/core/Interval.js` and `src/src/core/IntervalProcessor.js`).

JavaScript numbers used by the core are exact integers (the parsing
collaborator rejects fractional or overflowing text before a Range is
constructed), so `start` and `end` are modelled as `Int`.  The `end`
field is named `stop` here because `end` is a Lean keyword.  A throwing
JavaScript constructor or method is modelled with `Option` / `Except`.
-/

namespace IntervalProc

/-- The `Interval` value type: a closed integer interval (`Interval.js`).
The JS field `end` is named `stop`. -/
structure Interval where
  start : Int
  stop : Int
  deriving Repr, DecidableEq

/-- Error kinds raised by the core (`Interval.js`): the constructor's
invalid-range error, `merge`'s non-mergeable error, and the re-thrown
"Merge failed" error from `merge`'s inner try/catch. -/
inductive IntervalError where
  | invalidInterval
  | notMergeable
  | mergeFailed
  deriving Repr, DecidableEq

/-- Models `new Interval(start, end)`: throws when `start > end`, otherwise
constructs the interval (constructor of `Interval.js`). -/
def Interval.new (start stop : Int) : Option Interval :=
  if start > stop then none else some ⟨start, stop⟩

/-- Models `overlaps = (other) => this.start <= other.end && other.start <= this.end`. -/
def Interval.overlaps (a other : Interval) : Bool :=
  decide (a.start ≤ other.stop) && decide (other.start ≤ a.stop)

/-- Models `contains = (other) => this.start <= other.start && this.end >= other.end`. -/
def Interval.contains (a other : Interval) : Bool :=
  decide (a.start ≤ other.start) && decide (a.stop ≥ other.stop)

/-- Models `isAdjacent = (other) => this.end + 1 === other.start || other.end + 1 === this.start`. -/
def Interval.isAdjacent (a other : Interval) : Bool :=
  decide (a.stop + 1 = other.start) || decide (other.stop + 1 = a.start)

/-- Models `merge`: throws `notMergeable` when neither overlapping nor adjacent;
otherwise builds `new Interval(min(starts), max(ends))`, re-throwing a
constructor failure as `mergeFailed` (the inner try/catch). -/
def Interval.merge (a other : Interval) : Except IntervalError Interval :=
  if !a.overlaps other && !a.isAdjacent other then
    .error .notMergeable
  else
    match Interval.new (min a.start other.start) (max a.stop other.stop) with
    | some i => .ok i
    | none => .error .mergeFailed

/-- Models `subtract = (exclude) => ...` of `Interval.js`: the four-case difference.
Each `try { push(new Interval ...) } catch { return fallback }` block is
modelled by matching on `Interval.new`; when any constructor in the taken
branch fails the whole branch returns the catch fallback. -/
def Interval.subtract (a exclude : Interval) : List Interval :=
  if !a.overlaps exclude then
    [a]
  else if exclude.contains a then
    []
  else if decide (exclude.start > a.start) && decide (exclude.stop < a.stop) then
    match Interval.new a.start (exclude.start - 1), Interval.new (exclude.stop + 1) a.stop with
    | some left, some right => [left, right]
    | _, _ => [a]
  else if decide (exclude.start ≤ a.start) && decide (exclude.stop < a.stop) then
    match Interval.new (exclude.stop + 1) a.stop with
    | some right => [right]
    | none => []
  else if decide (exclude.start > a.start) && decide (exclude.stop ≥ a.stop) then
    match Interval.new a.start (exclude.start - 1) with
    | some left => [left]
    | none => []
  else
    []

/-- Models `Interval.compare = (a, b) => (a.start !== b.start ? a.start - b.start : a.end - b.end)`. -/
def Interval.compare (a b : Interval) : Int :=
  if a.start ≠ b.start then a.start - b.start else a.stop - b.stop

/-- The order induced by the JS comparator: `a` sorts no later than `b`
iff `Interval.compare a b ≤ 0`.  `Array.prototype.sort` with a comparator
is a stable sort with respect to this relation, so it is modelled by
`List.mergeSort` on `Interval.le`. -/
def Interval.le (a b : Interval) : Bool :=
  decide (Interval.compare a b ≤ 0)

/-- The loop body of `mergeIntervals` (`IntervalProcessor.js`): walk the
sorted list with a running `current`; merge when overlapping or adjacent
(the catch branch emits `current` and restarts from `next`), otherwise
emit `current`. -/
def mergeWalk (current : Interval) : List Interval → List Interval
  | [] => [current]
  | next :: rest =>
    if current.overlaps next || current.isAdjacent next then
      match current.merge next with
      | .ok m => mergeWalk m rest
      | .error _ => current :: mergeWalk next rest
    else
      current :: mergeWalk next rest

/-- Models `IntervalProcessor.mergeIntervals`: return inputs of length ≤ 1
unchanged, else sort by the comparator and sweep with `mergeWalk`. -/
def mergeIntervals (intervals : List Interval) : List Interval :=
  if intervals.length ≤ 1 then intervals
  else
    match intervals.mergeSort Interval.le with
    | [] => []
    | c :: rest => mergeWalk c rest

/-- The inner loop of the optimized `subtractIntervals` for one include:
break when `exclude.start > include.end`, skip when
`exclude.end < include.start`, otherwise replace every overlapping piece
by its `subtract` result. -/
def applyExcludes (inc : Interval) (current : List Interval) : List Interval → List Interval
  | [] => current
  | ex :: rest =>
    if decide (ex.start > inc.stop) then current
    else if decide (ex.stop < inc.start) then applyExcludes inc current rest
    else
      applyExcludes inc
        (current.flatMap fun i => if i.overlaps ex then i.subtract ex else [i]) rest

/-- Models `IntervalProcessor.subtractIntervals` (optimized, lines 96–122):
return includes unchanged when there are no excludes, else sort the
excludes and process each include independently with `applyExcludes`. -/
def subtractIntervals (includes excludes : List Interval) : List Interval :=
  if excludes.length = 0 then includes
  else
    let sortedExcludes := excludes.mergeSort Interval.le
    includes.flatMap fun inc => applyExcludes inc [inc] sortedExcludes

/-- The naive `subtractIntervals` variant (lines 225–249): subtract every
exclude from every remaining piece, then sort the final result by the
comparator. -/
def subtractIntervalsNaive (includes excludes : List Interval) : List Interval :=
  if excludes.length = 0 then includes
  else
    (excludes.foldl (fun result ex => result.flatMap fun i => i.subtract ex) includes).mergeSort
      Interval.le

/-- True exactly when evaluating `a.subtract exclude` in `Interval.js`
would enter one of the three catch fallbacks (a constructor in the taken
branch throws). -/
def Interval.subtractCatchReached (a exclude : Interval) : Bool :=
  if !a.overlaps exclude then false
  else if exclude.contains a then false
  else if decide (exclude.start > a.start) && decide (exclude.stop < a.stop) then
    (Interval.new a.start (exclude.start - 1)).isNone ||
      (Interval.new (exclude.stop + 1) a.stop).isNone
  else if decide (exclude.start ≤ a.start) && decide (exclude.stop < a.stop) then
    (Interval.new (exclude.stop + 1) a.stop).isNone
  else if decide (exclude.start > a.start) && decide (exclude.stop ≥ a.stop) then
    (Interval.new a.start (exclude.start - 1)).isNone
  else false

/-- True exactly when the `mergeIntervals` walk ever enters its catch
branch, i.e. `current.merge(next)` throws under the overlap/adjacency
guard. -/
def mergeWalkCatch (current : Interval) : List Interval → Bool
  | [] => false
  | next :: rest =>
    if current.overlaps next || current.isAdjacent next then
      match current.merge next with
      | .ok m => mergeWalkCatch m rest
      | .error _ => true
    else
      mergeWalkCatch next rest

/-- True exactly when `IntervalProcessor.mergeIntervals` would enter its
catch branch on the given input. -/
def mergeIntervalsCatch (intervals : List Interval) : Bool :=
  if intervals.length ≤ 1 then false
  else
    match intervals.mergeSort Interval.le with
    | [] => false
    | c :: rest => mergeWalkCatch c rest

/-- True exactly when some `subtract` call performed by `applyExcludes`
enters a catch fallback. -/
def applyExcludesCatch (inc : Interval) (current : List Interval) : List Interval → Bool
  | [] => false
  | ex :: rest =>
    if decide (ex.start > inc.stop) then false
    else if decide (ex.stop < inc.start) then applyExcludesCatch inc current rest
    else
      (current.any fun i => i.overlaps ex && i.subtractCatchReached ex) ||
        applyExcludesCatch inc
          (current.flatMap fun i => if i.overlaps ex then i.subtract ex else [i]) rest

/-- True exactly when the optimized `subtractIntervals` would enter a
catch fallback of `Interval.subtract` on the given input. -/
def subtractIntervalsCatch (includes excludes : List Interval) : Bool :=
  if excludes.length = 0 then false
  else
    let sortedExcludes := excludes.mergeSort Interval.le
    includes.any fun inc => applyExcludesCatch inc [inc] sortedExcludes

/-! ### Semantic layer -/

/-- A well-formed interval: `start ≤ end` (the constructor invariant). -/
abbrev Interval.Valid (i : Interval) : Prop := i.start ≤ i.stop

/-- The integer `x` lies in the closed interval `i`. -/
abbrev Interval.mem (x : Int) (i : Interval) : Prop := i.start ≤ x ∧ x ≤ i.stop

/-- The integer `x` is covered by some interval of the list. -/
abbrev covers (l : List Interval) (x : Int) : Prop := ∃ i ∈ l, Interval.mem x i

/-- Separation of consecutive canonical intervals: a gap of at least one
integer (`a.stop + 2 ≤ b.start`), which for valid intervals rules out
both overlap and adjacency. -/
abbrev Interval.sep (a b : Interval) : Prop := a.stop + 2 ≤ b.start

/-- Canonical form of a range sequence: consecutive intervals separated
by at least one uncovered integer, and every interval well-formed. -/
def Canonical (l : List Interval) : Prop :=
  l.Chain' Interval.sep ∧ ∀ i ∈ l, i.Valid

instance (l : List Interval) : Decidable (Canonical l) := by
  unfold Canonical; infer_instance

/-! ### Basic lemmas about the `Interval` operations -/

theorem overlaps_iff (a b : Interval) :
    a.overlaps b = true ↔ a.start ≤ b.stop ∧ b.start ≤ a.stop := by
  simp [Interval.overlaps]

theorem isAdjacent_iff (a b : Interval) :
    a.isAdjacent b = true ↔ a.stop + 1 = b.start ∨ b.stop + 1 = a.start := by
  simp [Interval.isAdjacent]

theorem contains_iff (a b : Interval) :
    a.contains b = true ↔ a.start ≤ b.start ∧ b.stop ≤ a.stop := by
  simp [Interval.contains]

theorem new_eq_some_iff (s e : Int) (i : Interval) :
    Interval.new s e = some i ↔ s ≤ e ∧ i = ⟨s, e⟩ := by
  unfold Interval.new
  split
  · rename_i h
    constructor
    · intro hc; simp at hc
    · rintro ⟨h1, rfl⟩; omega
  · rename_i h
    constructor
    · intro hc; exact ⟨by omega, (Option.some_inj.mp hc).symm⟩
    · rintro ⟨h1, rfl⟩; rfl

theorem new_eq_none_iff (s e : Int) :
    Interval.new s e = none ↔ e < s := by
  unfold Interval.new
  split <;> simp <;> omega

theorem le_iff (a b : Interval) :
    Interval.le a b = true ↔
      a.start < b.start ∨ (a.start = b.start ∧ a.stop ≤ b.stop) := by
  simp only [Interval.le, Interval.compare, decide_eq_true_eq]
  split <;> omega

theorem le_total (a b : Interval) : Interval.le a b || Interval.le b a := by
  rw [Bool.or_eq_true, le_iff, le_iff]
  omega

theorem le_trans (a b c : Interval) :
    Interval.le a b → Interval.le b c → Interval.le a c := by
  rw [le_iff, le_iff, le_iff]
  omega

@[simp] theorem covers_nil (x : Int) : ¬ covers [] x := by
  simp [covers]

@[simp] theorem covers_cons (i : Interval) (l : List Interval) (x : Int) :
    covers (i :: l) x ↔ Interval.mem x i ∨ covers l x := by
  simp [covers]

theorem covers_append (l₁ l₂ : List Interval) (x : Int) :
    covers (l₁ ++ l₂) x ↔ covers l₁ x ∨ covers l₂ x := by
  simp [covers, or_and_right, exists_or]

theorem covers_flatMap (l : List Interval) (f : Interval → List Interval) (x : Int) :
    covers (l.flatMap f) x ↔ ∃ i ∈ l, covers (f i) x := by
  simp [covers]
  tauto

theorem covers_of_perm {l₁ l₂ : List Interval} (h : l₁.Perm l₂) (x : Int) :
    covers l₁ x ↔ covers l₂ x := by
  unfold covers
  constructor <;> rintro ⟨i, hi, hm⟩
  · exact ⟨i, h.mem_iff.mp hi, hm⟩
  · exact ⟨i, h.mem_iff.mpr hi, hm⟩

/-! ### `subtract` case analysis -/

theorem subtract_eq_cases (a b : Interval) (ha : a.Valid) (hb : b.Valid) :
    a.subtract b =
      if b.stop < a.start ∨ a.stop < b.start then [a]
      else if b.start ≤ a.start ∧ a.stop ≤ b.stop then []
      else if a.start < b.start ∧ b.stop < a.stop then
        [⟨a.start, b.start - 1⟩, ⟨b.stop + 1, a.stop⟩]
      else if b.start ≤ a.start then [⟨b.stop + 1, a.stop⟩]
      else [⟨a.start, b.start - 1⟩] := by
  unfold Interval.Valid at ha hb
  by_cases h1 : b.stop < a.start ∨ a.stop < b.start
  · have hov : a.overlaps b = false := by
      simp only [Interval.overlaps, Bool.and_eq_false_iff, decide_eq_false_iff_not, not_le]
      omega
    rw [if_pos h1]
    unfold Interval.subtract
    rw [hov]
    simp
  · have hov : a.overlaps b = true := by
      simp only [Interval.overlaps, Bool.and_eq_true, decide_eq_true_eq]
      omega
    rw [if_neg h1]
    by_cases h2 : b.start ≤ a.start ∧ a.stop ≤ b.stop
    · have hc : b.contains a = true := by
        simp only [Interval.contains, Bool.and_eq_true, decide_eq_true_eq, ge_iff_le]
        omega
      rw [if_pos h2]
      unfold Interval.subtract
      rw [hov, hc]
      simp
    · have hc : b.contains a = false := by
        simp only [Interval.contains, Bool.and_eq_false_iff, decide_eq_false_iff_not, not_le,
          ge_iff_le]
        omega
      rw [if_neg h2]
      by_cases h3 : a.start < b.start ∧ b.stop < a.stop
      · rw [if_pos h3]
        have e1 : Interval.new a.start (b.start - 1) = some ⟨a.start, b.start - 1⟩ :=
          (new_eq_some_iff _ _ _).mpr ⟨by omega, rfl⟩
        have e2 : Interval.new (b.stop + 1) a.stop = some ⟨b.stop + 1, a.stop⟩ :=
          (new_eq_some_iff _ _ _).mpr ⟨by omega, rfl⟩
        have c3 : (decide (b.start > a.start) && decide (b.stop < a.stop)) = true := by
          simp only [Bool.and_eq_true, decide_eq_true_eq, gt_iff_lt]
          omega
        unfold Interval.subtract
        rw [hov, hc, c3, e1, e2]
        simp
      · rw [if_neg h3]
        by_cases h4 : b.start ≤ a.start
        · rw [if_pos h4]
          have c3 : (decide (b.start > a.start) && decide (b.stop < a.stop)) = false := by
            simp only [Bool.and_eq_false_iff, decide_eq_false_iff_not, not_lt, gt_iff_lt]
            omega
          have c4 : (decide (b.start ≤ a.start) && decide (b.stop < a.stop)) = true := by
            simp only [Bool.and_eq_true, decide_eq_true_eq]
            omega
          have e2 : Interval.new (b.stop + 1) a.stop = some ⟨b.stop + 1, a.stop⟩ :=
            (new_eq_some_iff _ _ _).mpr ⟨by omega, rfl⟩
          unfold Interval.subtract
          rw [hov, hc, c3, c4, e2]
          simp
        · rw [if_neg h4]
          have c3 : (decide (b.start > a.start) && decide (b.stop < a.stop)) = false := by
            simp only [Bool.and_eq_false_iff, decide_eq_false_iff_not, not_lt, gt_iff_lt]
            omega
          have c4 : (decide (b.start ≤ a.start) && decide (b.stop < a.stop)) = false := by
            simp only [Bool.and_eq_false_iff, decide_eq_false_iff_not, not_le, not_lt]
            omega
          have c5 : (decide (b.start > a.start) && decide (b.stop ≥ a.stop)) = true := by
            simp only [Bool.and_eq_true, decide_eq_true_eq, gt_iff_lt, ge_iff_le]
            omega
          have e1 : Interval.new a.start (b.start - 1) = some ⟨a.start, b.start - 1⟩ :=
            (new_eq_some_iff _ _ _).mpr ⟨by omega, rfl⟩
          unfold Interval.subtract
          rw [hov, hc, c3, c4, c5, e1]
          simp

theorem subtract_covers (a b : Interval) (ha : a.Valid) (hb : b.Valid) (x : Int) :
    covers (a.subtract b) x ↔ Interval.mem x a ∧ ¬ Interval.mem x b := by
  rw [subtract_eq_cases a b ha hb]
  unfold Interval.Valid at ha hb
  split_ifs <;>
    simp only [covers_cons, covers_nil, Interval.mem, iff_false, or_false, false_iff] <;>
    omega

theorem subtract_valid (a b : Interval) (ha : a.Valid) (hb : b.Valid) :
    ∀ p ∈ a.subtract b, p.Valid := by
  rw [subtract_eq_cases a b ha hb]
  unfold Interval.Valid at *
  intro p hp
  split_ifs at hp <;>
    simp only [List.mem_cons, List.mem_singleton, List.not_mem_nil, or_false] at hp
  all_goals first
    | (rcases hp with rfl | rfl)
    | (rcases hp with rfl)
  all_goals try dsimp only
  all_goals omega

theorem subtract_span (a b : Interval) (ha : a.Valid) (hb : b.Valid) :
    ∀ p ∈ a.subtract b, a.start ≤ p.start ∧ p.stop ≤ a.stop := by
  rw [subtract_eq_cases a b ha hb]
  unfold Interval.Valid at *
  intro p hp
  split_ifs at hp <;>
    simp only [List.mem_cons, List.mem_singleton, List.not_mem_nil, or_false] at hp
  all_goals first
    | (rcases hp with rfl | rfl)
    | (rcases hp with rfl)
  all_goals try dsimp only
  all_goals constructor <;> omega

theorem subtract_chain (a b : Interval) (ha : a.Valid) (hb : b.Valid) :
    (a.subtract b).Chain' Interval.sep := by
  rw [subtract_eq_cases a b ha hb]
  unfold Interval.Valid at *
  split_ifs <;>
    simp only [List.chain'_cons, List.chain'_singleton, List.chain'_nil, Interval.sep,
      and_true] <;>
    omega

theorem subtractCatchReached_false (a b : Interval) (ha : a.Valid) (hb : b.Valid) :
    a.subtractCatchReached b = false := by
  unfold Interval.Valid at ha hb
  unfold Interval.subtractCatchReached
  by_cases h1 : b.stop < a.start ∨ a.stop < b.start
  · have hov : a.overlaps b = false := by
      simp only [Interval.overlaps, Bool.and_eq_false_iff, decide_eq_false_iff_not, not_le]
      omega
    rw [hov]
    simp
  · have hov : a.overlaps b = true := by
      simp only [Interval.overlaps, Bool.and_eq_true, decide_eq_true_eq]
      omega
    by_cases h2 : b.start ≤ a.start ∧ a.stop ≤ b.stop
    · have hc : b.contains a = true := by
        simp only [Interval.contains, Bool.and_eq_true, decide_eq_true_eq, ge_iff_le]
        omega
      rw [hov, hc]
      simp
    · have hc : b.contains a = false := by
        simp only [Interval.contains, Bool.and_eq_false_iff, decide_eq_false_iff_not, not_le,
          ge_iff_le]
        omega
      by_cases h3 : a.start < b.start ∧ b.stop < a.stop
      · have c3 : (decide (b.start > a.start) && decide (b.stop < a.stop)) = true := by
          simp only [Bool.and_eq_true, decide_eq_true_eq, gt_iff_lt]
          omega
        have e1 : Interval.new a.start (b.start - 1) = some ⟨a.start, b.start - 1⟩ :=
          (new_eq_some_iff _ _ _).mpr ⟨by omega, rfl⟩
        have e2 : Interval.new (b.stop + 1) a.stop = some ⟨b.stop + 1, a.stop⟩ :=
          (new_eq_some_iff _ _ _).mpr ⟨by omega, rfl⟩
        rw [hov, hc, c3, e1, e2]
        simp
      · by_cases h4 : b.start ≤ a.start
        · have c3 : (decide (b.start > a.start) && decide (b.stop < a.stop)) = false := by
            simp only [Bool.and_eq_false_iff, decide_eq_false_iff_not, not_lt, gt_iff_lt]
            omega
          have c4 : (decide (b.start ≤ a.start) && decide (b.stop < a.stop)) = true := by
            simp only [Bool.and_eq_true, decide_eq_true_eq]
            omega
          have e2 : Interval.new (b.stop + 1) a.stop = some ⟨b.stop + 1, a.stop⟩ :=
            (new_eq_some_iff _ _ _).mpr ⟨by omega, rfl⟩
          rw [hov, hc, c3, c4, e2]
          simp
        · have c3 : (decide (b.start > a.start) && decide (b.stop < a.stop)) = false := by
            simp only [Bool.and_eq_false_iff, decide_eq_false_iff_not, not_lt, gt_iff_lt]
            omega
          have c4 : (decide (b.start ≤ a.start) && decide (b.stop < a.stop)) = false := by
            simp only [Bool.and_eq_false_iff, decide_eq_false_iff_not, not_le, not_lt]
            omega
          have c5 : (decide (b.start > a.start) && decide (b.stop ≥ a.stop)) = true := by
            simp only [Bool.and_eq_true, decide_eq_true_eq, gt_iff_lt, ge_iff_le]
            omega
          have e1 : Interval.new a.start (b.start - 1) = some ⟨a.start, b.start - 1⟩ :=
            (new_eq_some_iff _ _ _).mpr ⟨by omega, rfl⟩
          rw [hov, hc, c3, c4, c5, e1]
          simp

/-! ### `merge` characterization -/

theorem merge_ok (a b : Interval) (ha : a.Valid) (hb : b.Valid)
    (h : a.overlaps b = true ∨ a.isAdjacent b = true) :
    a.merge b = .ok ⟨min a.start b.start, max a.stop b.stop⟩ := by
  unfold Interval.merge
  have hg : (!a.overlaps b && !a.isAdjacent b) = false := by
    rcases h with h | h <;> rw [h] <;> simp
  have e : Interval.new (min a.start b.start) (max a.stop b.stop) =
      some ⟨min a.start b.start, max a.stop b.stop⟩ :=
    (new_eq_some_iff _ _ _).mpr ⟨by unfold Interval.Valid at ha hb; omega, rfl⟩
  rw [hg]
  simp only [Bool.false_eq_true, if_false, e]

theorem merge_error (a b : Interval) (h1 : a.overlaps b = false)
    (h2 : a.isAdjacent b = false) : a.merge b = .error .notMergeable := by
  unfold Interval.merge
  rw [h1, h2]
  simp

theorem mem_hull (a b : Interval) (ha : a.Valid) (hb : b.Valid)
    (h : a.overlaps b = true ∨ a.isAdjacent b = true) (x : Int) :
    Interval.mem x ⟨min a.start b.start, max a.stop b.stop⟩ ↔
      Interval.mem x a ∨ Interval.mem x b := by
  unfold Interval.Valid at ha hb
  rcases h with h | h
  · rw [overlaps_iff] at h
    unfold Interval.mem
    dsimp only
    omega
  · rw [isAdjacent_iff] at h
    unfold Interval.mem
    dsimp only
    omega

theorem le_start {a b : Interval} (h : Interval.le a b = true) : a.start ≤ b.start := by
  rw [le_iff] at h
  omega

/-! ### The merge-phase walk -/

theorem mergeWalk_start (rest : List Interval) (current : Interval)
    (hc : current.Valid) (hv : ∀ i ∈ rest, i.Valid)
    (hs : rest.Pairwise fun a b => Interval.le a b = true)
    (hm : ∀ i ∈ rest, current.start ≤ i.start) :
    ∀ p ∈ mergeWalk current rest, current.start ≤ p.start := by
  induction rest generalizing current with
  | nil =>
    intro p hp
    simp only [mergeWalk, List.mem_singleton] at hp
    subst hp
    exact le_refl _
  | cons next rest ih =>
    intro p hp
    rw [mergeWalk] at hp
    have hnv : next.Valid := hv next (by simp)
    rcases List.pairwise_cons.mp hs with ⟨hnext, htail⟩
    by_cases hob : (current.overlaps next || current.isAdjacent next) = true
    · rw [if_pos hob] at hp
      have hdisj : current.overlaps next = true ∨ current.isAdjacent next = true := by simpa using hob
      rw [merge_ok current next hc hnv hdisj] at hp
      have hmstart : current.start ≤ next.start := hm next (by simp)
      have hmv : (⟨min current.start next.start, max current.stop next.stop⟩ : Interval).Valid := by
        unfold Interval.Valid at hc hnv ⊢
        dsimp only
        omega
      have h1 := ih ⟨min current.start next.start, max current.stop next.stop⟩ hmv
        (fun i hi => hv i (by simp [hi])) htail
        (fun i hi => by
          have := le_start (hnext i hi)
          dsimp only
          omega)
        p hp
      dsimp only at h1
      omega
    · rw [if_neg hob] at hp
      rcases List.mem_cons.mp hp with rfl | hp2
      · exact le_refl _
      · have h1 := ih next hnv (fun i hi => hv i (by simp [hi])) htail
          (fun i hi => le_start (hnext i hi)) p hp2
        have := hm next (by simp)
        omega

theorem mergeWalk_valid (rest : List Interval) (current : Interval)
    (hc : current.Valid) (hv : ∀ i ∈ rest, i.Valid)
    (hs : rest.Pairwise fun a b => Interval.le a b = true)
    (hm : ∀ i ∈ rest, current.start ≤ i.start) :
    ∀ p ∈ mergeWalk current rest, p.Valid := by
  induction rest generalizing current with
  | nil =>
    intro p hp
    simp only [mergeWalk, List.mem_singleton] at hp
    subst hp
    exact hc
  | cons next rest ih =>
    intro p hp
    rw [mergeWalk] at hp
    have hnv : next.Valid := hv next (by simp)
    rcases List.pairwise_cons.mp hs with ⟨hnext, htail⟩
    by_cases hob : (current.overlaps next || current.isAdjacent next) = true
    · rw [if_pos hob] at hp
      have hdisj : current.overlaps next = true ∨ current.isAdjacent next = true := by simpa using hob
      rw [merge_ok current next hc hnv hdisj] at hp
      have hmv : (⟨min current.start next.start, max current.stop next.stop⟩ : Interval).Valid := by
        unfold Interval.Valid at hc hnv ⊢
        dsimp only
        omega
      exact ih ⟨min current.start next.start, max current.stop next.stop⟩ hmv
        (fun i hi => hv i (by simp [hi])) htail
        (fun i hi => by
          have := le_start (hnext i hi)
          dsimp only
          omega)
        p hp
    · rw [if_neg hob] at hp
      rcases List.mem_cons.mp hp with rfl | hp2
      · exact hc
      · exact ih next hnv (fun i hi => hv i (by simp [hi])) htail
          (fun i hi => le_start (hnext i hi)) p hp2

theorem mergeWalk_chain (rest : List Interval) (current : Interval)
    (hc : current.Valid) (hv : ∀ i ∈ rest, i.Valid)
    (hs : rest.Pairwise fun a b => Interval.le a b = true)
    (hm : ∀ i ∈ rest, current.start ≤ i.start) :
    (mergeWalk current rest).Chain' Interval.sep := by
  induction rest generalizing current with
  | nil => simp [mergeWalk]
  | cons next rest ih =>
    rw [mergeWalk]
    have hnv : next.Valid := hv next (by simp)
    rcases List.pairwise_cons.mp hs with ⟨hnext, htail⟩
    by_cases hob : (current.overlaps next || current.isAdjacent next) = true
    · rw [if_pos hob]
      have hdisj : current.overlaps next = true ∨ current.isAdjacent next = true := by
        simpa using hob
      rw [merge_ok current next hc hnv hdisj]
      have hmv : (⟨min current.start next.start, max current.stop next.stop⟩ : Interval).Valid := by
        unfold Interval.Valid at hc hnv ⊢
        dsimp only
        omega
      exact ih ⟨min current.start next.start, max current.stop next.stop⟩ hmv
        (fun i hi => hv i (by simp [hi])) htail
        (fun i hi => by
          have := le_start (hnext i hi)
          dsimp only
          omega)
    · rw [if_neg hob]
      have hor : (current.overlaps next || current.isAdjacent next) = false := by
        simpa using hob
      have hsep : current.stop + 2 ≤ next.start := by
        rcases Bool.or_eq_false_iff.mp hor with ⟨h1, h2⟩
        have hno : ¬ (current.start ≤ next.stop ∧ next.start ≤ current.stop) := by
          rw [← overlaps_iff]
          simp [h1]
        have hna : ¬ (current.stop + 1 = next.start ∨ next.stop + 1 = current.start) := by
          rw [← isAdjacent_iff]
          simp [h2]
        have := hm next (by simp)
        unfold Interval.Valid at hc hnv
        omega
      rw [List.chain'_cons']
      refine ⟨?_, ih next hnv (fun i hi => hv i (by simp [hi])) htail
        (fun i hi => le_start (hnext i hi))⟩
      intro p hp
      have hp1 : p ∈ mergeWalk next rest := List.mem_of_mem_head? hp
      have := mergeWalk_start rest next hnv (fun i hi => hv i (by simp [hi])) htail
        (fun i hi => le_start (hnext i hi)) p hp1
      unfold Interval.sep
      omega

theorem mergeWalk_covers (rest : List Interval) (current : Interval)
    (hc : current.Valid) (hv : ∀ i ∈ rest, i.Valid)
    (hs : rest.Pairwise fun a b => Interval.le a b = true)
    (hm : ∀ i ∈ rest, current.start ≤ i.start) (x : Int) :
    covers (mergeWalk current rest) x ↔ Interval.mem x current ∨ covers rest x := by
  induction rest generalizing current with
  | nil => simp [mergeWalk]
  | cons next rest ih =>
    rw [mergeWalk]
    have hnv : next.Valid := hv next (by simp)
    rcases List.pairwise_cons.mp hs with ⟨hnext, htail⟩
    by_cases hob : (current.overlaps next || current.isAdjacent next) = true
    · rw [if_pos hob]
      have hdisj : current.overlaps next = true ∨ current.isAdjacent next = true := by
        simpa using hob
      rw [merge_ok current next hc hnv hdisj]
      have hmv : (⟨min current.start next.start, max current.stop next.stop⟩ : Interval).Valid := by
        unfold Interval.Valid at hc hnv ⊢
        dsimp only
        omega
      rw [ih ⟨min current.start next.start, max current.stop next.stop⟩ hmv
        (fun i hi => hv i (by simp [hi])) htail
        (fun i hi => by
          have := le_start (hnext i hi)
          dsimp only
          omega)]
      rw [mem_hull current next hc hnv hdisj]
      simp [or_assoc]
    · rw [if_neg hob]
      rw [covers_cons]
      rw [ih next hnv (fun i hi => hv i (by simp [hi])) htail
        (fun i hi => le_start (hnext i hi))]
      simp [or_assoc]

theorem mergeWalkCatch_false (rest : List Interval) (current : Interval)
    (hc : current.Valid) (hv : ∀ i ∈ rest, i.Valid)
    (hs : rest.Pairwise fun a b => Interval.le a b = true)
    (hm : ∀ i ∈ rest, current.start ≤ i.start) :
    mergeWalkCatch current rest = false := by
  induction rest generalizing current with
  | nil => simp [mergeWalkCatch]
  | cons next rest ih =>
    rw [mergeWalkCatch]
    have hnv : next.Valid := hv next (by simp)
    rcases List.pairwise_cons.mp hs with ⟨hnext, htail⟩
    by_cases hob : (current.overlaps next || current.isAdjacent next) = true
    · rw [if_pos hob]
      have hdisj : current.overlaps next = true ∨ current.isAdjacent next = true := by
        simpa using hob
      rw [merge_ok current next hc hnv hdisj]
      have hmv : (⟨min current.start next.start, max current.stop next.stop⟩ : Interval).Valid := by
        unfold Interval.Valid at hc hnv ⊢
        dsimp only
        omega
      exact ih ⟨min current.start next.start, max current.stop next.stop⟩ hmv
        (fun i hi => hv i (by simp [hi])) htail
        (fun i hi => by
          have := le_start (hnext i hi)
          dsimp only
          omega)
    · rw [if_neg hob]
      exact ih next hnv (fun i hi => hv i (by simp [hi])) htail
        (fun i hi => le_start (hnext i hi))

/-! ### `mergeIntervals` -/

theorem sortedLe_mergeSort (l : List Interval) :
    (l.mergeSort Interval.le).Pairwise fun a b => Interval.le a b = true :=
  List.sorted_mergeSort le_trans le_total l

theorem mergeIntervals_canonical (l : List Interval) (hv : ∀ i ∈ l, i.Valid) :
    Canonical (mergeIntervals l) := by
  unfold mergeIntervals
  by_cases hlen : l.length ≤ 1
  · rw [if_pos hlen]
    refine ⟨?_, hv⟩
    match l with
    | [] => simp
    | [a] => simp
    | a :: b :: t => simp at hlen
  · rw [if_neg hlen]
    have hperm := List.mergeSort_perm l Interval.le
    have hsorted := sortedLe_mergeSort l
    rcases hsort : l.mergeSort Interval.le with _ | ⟨c, rest⟩
    · exact ⟨by simp, by simp⟩
    · rw [hsort] at hperm hsorted
      have hvs : ∀ i ∈ c :: rest, i.Valid := fun i hi => hv i (hperm.mem_iff.mp hi)
      rcases List.pairwise_cons.mp hsorted with ⟨hc1, htail⟩
      refine ⟨?_, ?_⟩
      · exact mergeWalk_chain rest c (hvs c (by simp))
          (fun i hi => hvs i (by simp [hi])) htail (fun i hi => le_start (hc1 i hi))
      · exact mergeWalk_valid rest c (hvs c (by simp))
          (fun i hi => hvs i (by simp [hi])) htail (fun i hi => le_start (hc1 i hi))

theorem mergeIntervals_covers (l : List Interval) (hv : ∀ i ∈ l, i.Valid) (x : Int) :
    covers (mergeIntervals l) x ↔ covers l x := by
  unfold mergeIntervals
  by_cases hlen : l.length ≤ 1
  · rw [if_pos hlen]
  · rw [if_neg hlen]
    have hperm := List.mergeSort_perm l Interval.le
    have hsorted := sortedLe_mergeSort l
    rcases hsort : l.mergeSort Interval.le with _ | ⟨c, rest⟩
    · rw [hsort] at hperm
      rw [← covers_of_perm hperm]
    · rw [hsort] at hperm hsorted
      have hvs : ∀ i ∈ c :: rest, i.Valid := fun i hi => hv i (hperm.mem_iff.mp hi)
      rcases List.pairwise_cons.mp hsorted with ⟨hc1, htail⟩
      rw [mergeWalk_covers rest c (hvs c (by simp))
        (fun i hi => hvs i (by simp [hi])) htail (fun i hi => le_start (hc1 i hi))]
      rw [← covers_of_perm hperm]
      simp

theorem mergeIntervalsCatch_false (l : List Interval) (hv : ∀ i ∈ l, i.Valid) :
    mergeIntervalsCatch l = false := by
  unfold mergeIntervalsCatch
  by_cases hlen : l.length ≤ 1
  · rw [if_pos hlen]
  · rw [if_neg hlen]
    have hperm := List.mergeSort_perm l Interval.le
    have hsorted := sortedLe_mergeSort l
    rcases hsort : l.mergeSort Interval.le with _ | ⟨c, rest⟩
    · rfl
    · rw [hsort] at hperm hsorted
      have hvs : ∀ i ∈ c :: rest, i.Valid := fun i hi => hv i (hperm.mem_iff.mp hi)
      rcases List.pairwise_cons.mp hsorted with ⟨hc1, htail⟩
      exact mergeWalkCatch_false rest c (hvs c (by simp))
        (fun i hi => hvs i (by simp [hi])) htail (fun i hi => le_start (hc1 i hi))

/-! ### Canonical-form helpers -/

theorem chain_sep_pairwise :
    ∀ l : List Interval, (∀ i ∈ l, i.Valid) → l.Chain' Interval.sep →
      l.Pairwise Interval.sep
  | [], _, _ => List.Pairwise.nil
  | a :: t, hv, hch => by
    have htail := (List.chain'_cons'.mp hch).2
    have ihp := chain_sep_pairwise t (fun i hi => hv i (by simp [hi])) htail
    rw [List.pairwise_cons]
    refine ⟨?_, ihp⟩
    intro b hb
    cases t with
    | nil => simp at hb
    | cons h t' =>
      have hah : Interval.sep a h := (List.chain'_cons'.mp hch).1 h rfl
      rcases List.mem_cons.mp hb with rfl | hb'
      · exact hah
      · have hhb := (List.pairwise_cons.mp ihp).1 b hb'
        have hhv : h.Valid := hv h (by simp)
        unfold Interval.sep at *
        unfold Interval.Valid at hhv
        omega

theorem sep_le {a b : Interval} (ha : a.Valid) (h : Interval.sep a b) :
    Interval.le a b = true := by
  unfold Interval.sep at h
  unfold Interval.Valid at ha
  rw [le_iff]
  omega

theorem canonical_pairwise_le {l : List Interval} (h : Canonical l) :
    l.Pairwise fun a b => Interval.le a b = true := by
  rcases h with ⟨hch, hv⟩
  exact (chain_sep_pairwise l hv hch).imp_of_mem fun ha _ hr => sep_le (hv _ ha) hr

theorem mergeWalk_of_sep :
    ∀ (rest : List Interval) (current : Interval), current.Valid →
      (∀ i ∈ rest, i.Valid) → (current :: rest).Chain' Interval.sep →
      mergeWalk current rest = current :: rest
  | [], c, _, _, _ => by simp [mergeWalk]
  | next :: rest, c, hc, hv, hch => by
    rw [mergeWalk]
    have hsep : Interval.sep c next := (List.chain'_cons.mp hch).1
    have hnv : next.Valid := hv next (by simp)
    have hob : (c.overlaps next || c.isAdjacent next) = false := by
      unfold Interval.sep at hsep
      unfold Interval.Valid at hc hnv
      rw [Bool.or_eq_false_iff]
      constructor
      · simp only [Interval.overlaps, Bool.and_eq_false_iff, decide_eq_false_iff_not, not_le]
        omega
      · simp only [Interval.isAdjacent, Bool.or_eq_false_iff, decide_eq_false_iff_not]
        omega
    rw [hob]
    simp only [Bool.false_eq_true, if_false]
    rw [mergeWalk_of_sep rest next hnv (fun i hi => hv i (by simp [hi]))
      (List.chain'_cons.mp hch).2]

theorem mergeIntervals_of_canonical (l : List Interval) (h : Canonical l) :
    mergeIntervals l = l := by
  unfold mergeIntervals
  by_cases hlen : l.length ≤ 1
  · rw [if_pos hlen]
  · rw [if_neg hlen]
    have hms : l.mergeSort Interval.le = l := List.mergeSort_of_sorted (canonical_pairwise_le h)
    rw [hms]
    rcases h with ⟨hch, hv⟩
    match l, hch, hv with
    | [], _, _ => rfl
    | c :: rest, hch, hv =>
      exact mergeWalk_of_sep rest c (hv c (by simp)) (fun i hi => hv i (by simp [hi])) hch

/-! ### The subtraction phase -/

theorem chain_flatMap (l : List Interval) (f : Interval → List Interval)
    (hch : l.Chain' Interval.sep) (hv : ∀ i ∈ l, i.Valid)
    (hfc : ∀ i ∈ l, (f i).Chain' Interval.sep)
    (hspan : ∀ i ∈ l, ∀ p ∈ f i, i.start ≤ p.start ∧ p.stop ≤ i.stop) :
    (l.flatMap f).Chain' Interval.sep := by
  induction l with
  | nil => simp
  | cons a t ih =>
    rw [List.flatMap_cons]
    have hpw := chain_sep_pairwise (a :: t) hv hch
    refine List.Chain'.append (hfc a (by simp))
      (ih (List.chain'_cons'.mp hch).2 (fun i hi => hv i (by simp [hi]))
        (fun i hi => hfc i (by simp [hi]))
        (fun i hi => hspan i (by simp [hi]))) ?_
    intro p hp q hq
    have hp1 : p ∈ f a := List.mem_of_mem_getLast? hp
    have hq1 : q ∈ t.flatMap f := List.mem_of_mem_head? hq
    rcases List.mem_flatMap.mp hq1 with ⟨j, hj, hqj⟩
    have hsep : Interval.sep a j := (List.pairwise_cons.mp hpw).1 j hj
    have h1 := hspan a (by simp) p hp1
    have h2 := hspan j (by simp [hj]) q hqj
    unfold Interval.sep at *
    omega

theorem body_covers (i ex : Interval) (hiv : i.Valid) (hexv : ex.Valid) (x : Int) :
    covers (if i.overlaps ex then i.subtract ex else [i]) x ↔
      Interval.mem x i ∧ ¬ Interval.mem x ex := by
  by_cases ho : i.overlaps ex = true
  · rw [if_pos ho]
    exact subtract_covers i ex hiv hexv x
  · rw [if_neg ho]
    have hno : ¬ (i.start ≤ ex.stop ∧ ex.start ≤ i.stop) := by
      rw [← overlaps_iff]
      exact ho
    simp only [covers_cons, covers_nil, or_false]
    unfold Interval.mem
    unfold Interval.Valid at hiv hexv
    constructor
    · intro hm
      exact ⟨hm, by omega⟩
    · rintro ⟨hm, _⟩
      exact hm

theorem body_valid (i ex : Interval) (hiv : i.Valid) (hexv : ex.Valid) :
    ∀ p ∈ (if i.overlaps ex then i.subtract ex else [i]), p.Valid := by
  by_cases ho : i.overlaps ex = true
  · rw [if_pos ho]
    exact subtract_valid i ex hiv hexv
  · rw [if_neg ho]
    intro p hp
    rw [List.mem_singleton] at hp
    subst hp
    exact hiv

theorem body_span (i ex : Interval) (hiv : i.Valid) (hexv : ex.Valid) :
    ∀ p ∈ (if i.overlaps ex then i.subtract ex else [i]),
      i.start ≤ p.start ∧ p.stop ≤ i.stop := by
  by_cases ho : i.overlaps ex = true
  · rw [if_pos ho]
    exact subtract_span i ex hiv hexv
  · rw [if_neg ho]
    intro p hp
    rw [List.mem_singleton] at hp
    subst hp
    exact ⟨le_refl _, le_refl _⟩

theorem body_chain (i ex : Interval) (hiv : i.Valid) (hexv : ex.Valid) :
    (if i.overlaps ex then i.subtract ex else [i]).Chain' Interval.sep := by
  by_cases ho : i.overlaps ex = true
  · rw [if_pos ho]
    exact subtract_chain i ex hiv hexv
  · rw [if_neg ho]
    simp

theorem flatMap_body_covers (current : List Interval) (ex : Interval)
    (hcv : ∀ p ∈ current, p.Valid) (hexv : ex.Valid) (x : Int) :
    covers (current.flatMap fun i => if i.overlaps ex then i.subtract ex else [i]) x ↔
      covers current x ∧ ¬ Interval.mem x ex := by
  rw [covers_flatMap]
  constructor
  · rintro ⟨i, hi, hci⟩
    rw [body_covers i ex (hcv i hi) hexv] at hci
    exact ⟨⟨i, hi, hci.1⟩, hci.2⟩
  · rintro ⟨⟨i, hi, hm⟩, hnm⟩
    exact ⟨i, hi, (body_covers i ex (hcv i hi) hexv x).mpr ⟨hm, hnm⟩⟩

theorem sorted_head_start {ex : Interval} {rest : List Interval}
    (hs : (ex :: rest).Pairwise fun a b => Interval.le a b = true) :
    ∀ e ∈ ex :: rest, ex.start ≤ e.start := by
  intro e he
  rcases List.mem_cons.mp he with rfl | he'
  · exact le_refl _
  · exact le_start ((List.pairwise_cons.mp hs).1 e he')

theorem applyExcludes_span (exs : List Interval) (inc : Interval) (current : List Interval)
    (hcs : ∀ p ∈ current, inc.start ≤ p.start ∧ p.stop ≤ inc.stop)
    (hcv : ∀ p ∈ current, p.Valid) (hev : ∀ e ∈ exs, e.Valid) :
    ∀ p ∈ applyExcludes inc current exs, inc.start ≤ p.start ∧ p.stop ≤ inc.stop := by
  induction exs generalizing current with
  | nil =>
    rw [applyExcludes]
    exact hcs
  | cons ex rest ih =>
    rw [applyExcludes]
    have hexv : ex.Valid := hev ex (by simp)
    by_cases h1 : ex.start > inc.stop
    · rw [if_pos (by simpa using h1)]
      exact hcs
    · rw [if_neg (by simpa using h1)]
      by_cases h2 : ex.stop < inc.start
      · rw [if_pos (by simpa using h2)]
        exact ih current hcs hcv (fun e he => hev e (by simp [he]))
      · rw [if_neg (by simpa using h2)]
        refine ih _ ?_ ?_ (fun e he => hev e (by simp [he]))
        · intro p hp
          rcases List.mem_flatMap.mp hp with ⟨i, hi, hpi⟩
          have hsp := body_span i ex (hcv i hi) hexv p hpi
          have hic := hcs i hi
          omega
        · intro p hp
          rcases List.mem_flatMap.mp hp with ⟨i, hi, hpi⟩
          exact body_valid i ex (hcv i hi) hexv p hpi

theorem applyExcludes_valid (exs : List Interval) (inc : Interval) (current : List Interval)
    (hcs : ∀ p ∈ current, inc.start ≤ p.start ∧ p.stop ≤ inc.stop)
    (hcv : ∀ p ∈ current, p.Valid) (hev : ∀ e ∈ exs, e.Valid) :
    ∀ p ∈ applyExcludes inc current exs, p.Valid := by
  induction exs generalizing current with
  | nil =>
    rw [applyExcludes]
    exact hcv
  | cons ex rest ih =>
    rw [applyExcludes]
    have hexv : ex.Valid := hev ex (by simp)
    by_cases h1 : ex.start > inc.stop
    · rw [if_pos (by simpa using h1)]
      exact hcv
    · rw [if_neg (by simpa using h1)]
      by_cases h2 : ex.stop < inc.start
      · rw [if_pos (by simpa using h2)]
        exact ih current hcs hcv (fun e he => hev e (by simp [he]))
      · rw [if_neg (by simpa using h2)]
        refine ih _ ?_ ?_ (fun e he => hev e (by simp [he]))
        · intro p hp
          rcases List.mem_flatMap.mp hp with ⟨i, hi, hpi⟩
          have hsp := body_span i ex (hcv i hi) hexv p hpi
          have hic := hcs i hi
          omega
        · intro p hp
          rcases List.mem_flatMap.mp hp with ⟨i, hi, hpi⟩
          exact body_valid i ex (hcv i hi) hexv p hpi

theorem applyExcludes_chain (exs : List Interval) (inc : Interval) (current : List Interval)
    (hcs : ∀ p ∈ current, inc.start ≤ p.start ∧ p.stop ≤ inc.stop)
    (hcv : ∀ p ∈ current, p.Valid) (hch : current.Chain' Interval.sep)
    (hev : ∀ e ∈ exs, e.Valid) :
    (applyExcludes inc current exs).Chain' Interval.sep := by
  induction exs generalizing current with
  | nil =>
    rw [applyExcludes]
    exact hch
  | cons ex rest ih =>
    rw [applyExcludes]
    have hexv : ex.Valid := hev ex (by simp)
    by_cases h1 : ex.start > inc.stop
    · rw [if_pos (by simpa using h1)]
      exact hch
    · rw [if_neg (by simpa using h1)]
      by_cases h2 : ex.stop < inc.start
      · rw [if_pos (by simpa using h2)]
        exact ih current hcs hcv hch (fun e he => hev e (by simp [he]))
      · rw [if_neg (by simpa using h2)]
        refine ih _ ?_ ?_ ?_ (fun e he => hev e (by simp [he]))
        · intro p hp
          rcases List.mem_flatMap.mp hp with ⟨i, hi, hpi⟩
          have hsp := body_span i ex (hcv i hi) hexv p hpi
          have hic := hcs i hi
          omega
        · intro p hp
          rcases List.mem_flatMap.mp hp with ⟨i, hi, hpi⟩
          exact body_valid i ex (hcv i hi) hexv p hpi
        · exact chain_flatMap current _ hch hcv
            (fun i hi => body_chain i ex (hcv i hi) hexv)
            (fun i hi => body_span i ex (hcv i hi) hexv)

theorem applyExcludes_covers (exs : List Interval) (inc : Interval) (current : List Interval)
    (hcs : ∀ p ∈ current, inc.start ≤ p.start ∧ p.stop ≤ inc.stop)
    (hcv : ∀ p ∈ current, p.Valid) (hev : ∀ e ∈ exs, e.Valid)
    (hs : exs.Pairwise fun a b => Interval.le a b = true) (x : Int) :
    covers (applyExcludes inc current exs) x ↔ covers current x ∧ ¬ covers exs x := by
  induction exs generalizing current with
  | nil =>
    rw [applyExcludes]
    simp
  | cons ex rest ih =>
    rw [applyExcludes]
    have hexv : ex.Valid := hev ex (by simp)
    by_cases h1 : ex.start > inc.stop
    · rw [if_pos (by simpa using h1)]
      constructor
      · intro hcov
        refine ⟨hcov, ?_⟩
        rcases hcov with ⟨p, hp, hm⟩
        have hsp := hcs p hp
        rintro ⟨e, he, hme⟩
        have := sorted_head_start hs e he
        unfold Interval.mem at hm hme
        omega
      · exact fun h => h.1
    · rw [if_neg (by simpa using h1)]
      by_cases h2 : ex.stop < inc.start
      · rw [if_pos (by simpa using h2)]
        rw [ih current hcs hcv (fun e he => hev e (by simp [he]))
          (List.pairwise_cons.mp hs).2]
        rw [covers_cons]
        constructor
        · rintro ⟨hcov, hnr⟩
          refine ⟨hcov, ?_⟩
          rintro (hme | hr)
          · rcases hcov with ⟨p, hp, hm⟩
            have hsp := hcs p hp
            unfold Interval.mem at hm hme
            omega
          · exact hnr hr
        · rintro ⟨hcov, hne⟩
          exact ⟨hcov, fun hr => hne (Or.inr hr)⟩
      · rw [if_neg (by simpa using h2)]
        rw [ih _ ?_ ?_ (fun e he => hev e (by simp [he])) (List.pairwise_cons.mp hs).2]
        · rw [flatMap_body_covers current ex hcv hexv, covers_cons]
          constructor
          · rintro ⟨⟨hcur, hnex⟩, hnr⟩
            exact ⟨hcur, fun h => h.elim hnex hnr⟩
          · rintro ⟨hcur, hn⟩
            exact ⟨⟨hcur, fun h => hn (Or.inl h)⟩, fun h => hn (Or.inr h)⟩
        · intro p hp
          rcases List.mem_flatMap.mp hp with ⟨i, hi, hpi⟩
          have hsp := body_span i ex (hcv i hi) hexv p hpi
          have hic := hcs i hi
          omega
        · intro p hp
          rcases List.mem_flatMap.mp hp with ⟨i, hi, hpi⟩
          exact body_valid i ex (hcv i hi) hexv p hpi

theorem applyExcludesCatch_false (exs : List Interval) (inc : Interval)
    (current : List Interval)
    (hcs : ∀ p ∈ current, inc.start ≤ p.start ∧ p.stop ≤ inc.stop)
    (hcv : ∀ p ∈ current, p.Valid) (hev : ∀ e ∈ exs, e.Valid) :
    applyExcludesCatch inc current exs = false := by
  induction exs generalizing current with
  | nil => rw [applyExcludesCatch]
  | cons ex rest ih =>
    rw [applyExcludesCatch]
    have hexv : ex.Valid := hev ex (by simp)
    by_cases h1 : ex.start > inc.stop
    · rw [if_pos (by simpa using h1)]
    · rw [if_neg (by simpa using h1)]
      by_cases h2 : ex.stop < inc.start
      · rw [if_pos (by simpa using h2)]
        exact ih current hcs hcv (fun e he => hev e (by simp [he]))
      · rw [if_neg (by simpa using h2)]
        rw [Bool.or_eq_false_iff]
        constructor
        · rw [List.any_eq_false]
          intro i hi
          rw [subtractCatchReached_false i ex (hcv i hi) hexv]
          simp
        · refine ih _ ?_ ?_ (fun e he => hev e (by simp [he]))
          · intro p hp
            rcases List.mem_flatMap.mp hp with ⟨i, hi, hpi⟩
            have hsp := body_span i ex (hcv i hi) hexv p hpi
            have hic := hcs i hi
            omega
          · intro p hp
            rcases List.mem_flatMap.mp hp with ⟨i, hi, hpi⟩
            exact body_valid i ex (hcv i hi) hexv p hpi

theorem subtractIntervals_canonical (includes excludes : List Interval)
    (hinc : Canonical includes) (hev : ∀ e ∈ excludes, e.Valid) :
    Canonical (subtractIntervals includes excludes) := by
  unfold subtractIntervals
  by_cases hlen : excludes.length = 0
  · rw [if_pos hlen]
    exact hinc
  · rw [if_neg hlen]
    have hperm := List.mergeSort_perm excludes Interval.le
    have hevs : ∀ e ∈ excludes.mergeSort Interval.le, e.Valid :=
      fun e he => hev e (hperm.mem_iff.mp he)
    rcases hinc with ⟨hch, hv⟩
    constructor
    · refine chain_flatMap includes _ hch hv ?_ ?_
      · intro i hi
        exact applyExcludes_chain _ i [i]
          (by intro p hp; rw [List.mem_singleton] at hp; rw [hp]; exact ⟨le_refl _, le_refl _⟩)
          (by intro p hp; rw [List.mem_singleton] at hp; rw [hp]; exact hv i hi)
          (by simp) hevs
      · intro i hi
        exact applyExcludes_span _ i [i]
          (by intro p hp; rw [List.mem_singleton] at hp; rw [hp]; exact ⟨le_refl _, le_refl _⟩)
          (by intro p hp; rw [List.mem_singleton] at hp; rw [hp]; exact hv i hi)
          hevs
    · intro p hp
      rcases List.mem_flatMap.mp hp with ⟨i, hi, hpi⟩
      exact applyExcludes_valid _ i [i]
        (by intro q hq; rw [List.mem_singleton] at hq; rw [hq]; exact ⟨le_refl _, le_refl _⟩)
        (by intro q hq; rw [List.mem_singleton] at hq; rw [hq]; exact hv i hi)
        hevs p hpi

theorem subtractIntervals_covers (includes excludes : List Interval)
    (hinc : Canonical includes) (hev : ∀ e ∈ excludes, e.Valid) (x : Int) :
    covers (subtractIntervals includes excludes) x ↔
      covers includes x ∧ ¬ covers excludes x := by
  unfold subtractIntervals
  by_cases hlen : excludes.length = 0
  · rw [if_pos hlen]
    have : excludes = [] := List.length_eq_zero.mp hlen
    subst this
    simp
  · rw [if_neg hlen]
    have hperm := List.mergeSort_perm excludes Interval.le
    have hevs : ∀ e ∈ excludes.mergeSort Interval.le, e.Valid :=
      fun e he => hev e (hperm.mem_iff.mp he)
    have hsorted := sortedLe_mergeSort excludes
    rcases hinc with ⟨hch, hv⟩
    rw [covers_flatMap]
    have hone : ∀ i ∈ includes,
        covers (applyExcludes i [i] (excludes.mergeSort Interval.le)) x ↔
          Interval.mem x i ∧ ¬ covers (excludes.mergeSort Interval.le) x := by
      intro i hi
      rw [applyExcludes_covers _ i [i]
        (by intro q hq; rw [List.mem_singleton] at hq; rw [hq]; exact ⟨le_refl _, le_refl _⟩)
        (by intro q hq; rw [List.mem_singleton] at hq; rw [hq]; exact hv i hi)
        hevs hsorted]
      simp
    rw [← covers_of_perm hperm]
    constructor
    · rintro ⟨i, hi, hm⟩
      rw [hone i hi] at hm
      exact ⟨⟨i, hi, hm.1⟩, hm.2⟩
    · rintro ⟨⟨i, hi, hm⟩, hne⟩
      exact ⟨i, hi, (hone i hi).mpr ⟨hm, hne⟩⟩

/-! ### Uniqueness of canonical form -/

theorem canonical_tail {a : Interval} {t : List Interval} (h : Canonical (a :: t)) :
    Canonical t :=
  ⟨(List.chain'_cons'.mp h.1).2, fun i hi => h.2 i (by simp [hi])⟩

theorem canonical_head_sep {a : Interval} {t : List Interval} (h : Canonical (a :: t)) :
    ∀ i ∈ t, a.stop + 2 ≤ i.start := by
  intro i hi
  exact (List.pairwise_cons.mp (chain_sep_pairwise (a :: t) h.2 h.1)).1 i hi

theorem canonical_head_min {a : Interval} {t : List Interval} (h : Canonical (a :: t)) :
    ∀ x : Int, covers (a :: t) x → a.start ≤ x := by
  rintro x ⟨i, hi, hm⟩
  have hav : a.Valid := h.2 a (by simp)
  rcases List.mem_cons.mp hi with rfl | hi'
  · exact hm.1
  · have := canonical_head_sep h i hi'
    unfold Interval.mem at hm
    unfold Interval.Valid at hav
    omega

theorem canonical_covers_start {a : Interval} {t : List Interval} (h : Canonical (a :: t)) :
    covers (a :: t) a.start :=
  ⟨a, by simp, le_refl _, h.2 a (by simp)⟩

theorem canonical_not_covers_succ {a : Interval} {t : List Interval}
    (h : Canonical (a :: t)) : ¬ covers (a :: t) (a.stop + 1) := by
  rintro ⟨i, hi, hm⟩
  rcases List.mem_cons.mp hi with rfl | hi'
  · unfold Interval.mem at hm
    omega
  · have := canonical_head_sep h i hi'
    unfold Interval.mem at hm
    omega

theorem canonical_covers_of_mem {a : Interval} {t : List Interval} {x : Int}
    (hx : a.start ≤ x) (hx2 : x ≤ a.stop) : covers (a :: t) x :=
  ⟨a, by simp, hx, hx2⟩

theorem canonical_tail_covers {a : Interval} {t : List Interval} (h : Canonical (a :: t))
    (x : Int) : covers t x ↔ covers (a :: t) x ∧ a.stop + 2 ≤ x := by
  constructor
  · rintro ⟨i, hi, hm⟩
    have := canonical_head_sep h i hi
    unfold Interval.mem at hm
    exact ⟨⟨i, by simp [hi], hm⟩, by omega⟩
  · rintro ⟨⟨i, hi, hm⟩, hx⟩
    rcases List.mem_cons.mp hi with rfl | hi'
    · unfold Interval.mem at hm
      omega
    · exact ⟨i, hi', hm⟩

theorem canonical_ext :
    ∀ l₁ l₂ : List Interval, Canonical l₁ → Canonical l₂ →
      (∀ x : Int, covers l₁ x ↔ covers l₂ x) → l₁ = l₂
  | [], [], _, _, _ => rfl
  | [], b :: t₂, _, h₂, hcov => by
    exfalso
    have hb := (hcov b.start).mpr (canonical_covers_start h₂)
    exact covers_nil b.start hb
  | a :: t₁, [], h₁, _, hcov => by
    exfalso
    have ha := (hcov a.start).mp (canonical_covers_start h₁)
    exact covers_nil a.start ha
  | a :: t₁, b :: t₂, h₁, h₂, hcov => by
    have hsa : a.start = b.start := by
      have h1 := canonical_head_min h₂ a.start ((hcov a.start).mp (canonical_covers_start h₁))
      have h2 := canonical_head_min h₁ b.start ((hcov b.start).mpr (canonical_covers_start h₂))
      omega
    have hav : a.Valid := h₁.2 a (by simp)
    have hbv : b.Valid := h₂.2 b (by simp)
    unfold Interval.Valid at hav hbv
    have hse : a.stop = b.stop := by
      rcases lt_trichotomy a.stop b.stop with hlt | heq | hgt
      · exfalso
        have hcv : covers (b :: t₂) (a.stop + 1) :=
          canonical_covers_of_mem (by omega) (by omega)
        exact canonical_not_covers_succ h₁ ((hcov (a.stop + 1)).mpr hcv)
      · exact heq
      · exfalso
        have hcv : covers (a :: t₁) (b.stop + 1) :=
          canonical_covers_of_mem (by omega) (by omega)
        exact canonical_not_covers_succ h₂ ((hcov (b.stop + 1)).mp hcv)
    have hab : a = b := by
      cases a
      cases b
      dsimp only at hsa hse
      rw [hsa, hse]
    have htail : ∀ x : Int, covers t₁ x ↔ covers t₂ x := by
      intro x
      rw [canonical_tail_covers h₁ x, canonical_tail_covers h₂ x, hcov x, hse]
    have ht := canonical_ext t₁ t₂ (canonical_tail h₁) (canonical_tail h₂) htail
    rw [hab, ht]

theorem subtractIntervalsCatch_false (includes excludes : List Interval)
    (hincv : ∀ i ∈ includes, i.Valid) (hev : ∀ e ∈ excludes, e.Valid) :
    subtractIntervalsCatch includes excludes = false := by
  unfold subtractIntervalsCatch
  by_cases hlen : excludes.length = 0
  · rw [if_pos hlen]
  · rw [if_neg hlen]
    have hperm := List.mergeSort_perm excludes Interval.le
    have hevs : ∀ e ∈ excludes.mergeSort Interval.le, e.Valid :=
      fun e he => hev e (hperm.mem_iff.mp he)
    rw [List.any_eq_false]
    intro i hi
    rw [applyExcludesCatch_false _ i [i]
      (by intro q hq; rw [List.mem_singleton] at hq; rw [hq]; exact ⟨le_refl _, le_refl _⟩)
      (by intro q hq; rw [List.mem_singleton] at hq; rw [hq]; exact hincv i hi)
      hevs]
    simp

/-! ### The naive `subtractIntervals` variant -/

theorem foldStep_canonical (result : List Interval) (ex : Interval)
    (h : Canonical result) (hexv : ex.Valid) :
    Canonical (result.flatMap fun i => i.subtract ex) := by
  constructor
  · exact chain_flatMap result _ h.1 h.2
      (fun i hi => subtract_chain i ex (h.2 i hi) hexv)
      (fun i hi => subtract_span i ex (h.2 i hi) hexv)
  · intro p hp
    rcases List.mem_flatMap.mp hp with ⟨i, hi, hpi⟩
    exact subtract_valid i ex (h.2 i hi) hexv p hpi

theorem foldStep_covers (result : List Interval) (ex : Interval)
    (hv : ∀ p ∈ result, p.Valid) (hexv : ex.Valid) (x : Int) :
    covers (result.flatMap fun i => i.subtract ex) x ↔
      covers result x ∧ ¬ Interval.mem x ex := by
  rw [covers_flatMap]
  constructor
  · rintro ⟨i, hi, hci⟩
    rw [subtract_covers i ex (hv i hi) hexv] at hci
    exact ⟨⟨i, hi, hci.1⟩, hci.2⟩
  · rintro ⟨⟨i, hi, hm⟩, hnm⟩
    exact ⟨i, hi, (subtract_covers i ex (hv i hi) hexv x).mpr ⟨hm, hnm⟩⟩

theorem naiveFold_canonical :
    ∀ (exs : List Interval) (result : List Interval), Canonical result →
      (∀ e ∈ exs, e.Valid) →
      Canonical (exs.foldl (fun r ex => r.flatMap fun i => i.subtract ex) result)
  | [], result, h, _ => h
  | ex :: rest, result, h, hev => by
    rw [List.foldl_cons]
    exact naiveFold_canonical rest _ (foldStep_canonical result ex h (hev ex (by simp)))
      (fun e he => hev e (by simp [he]))

theorem naiveFold_covers :
    ∀ (exs : List Interval) (result : List Interval), Canonical result →
      (∀ e ∈ exs, e.Valid) → ∀ x : Int,
      covers (exs.foldl (fun r ex => r.flatMap fun i => i.subtract ex) result) x ↔
        covers result x ∧ ¬ covers exs x
  | [], result, _, _, x => by simp
  | ex :: rest, result, h, hev, x => by
    rw [List.foldl_cons]
    rw [naiveFold_covers rest _ (foldStep_canonical result ex h (hev ex (by simp)))
      (fun e he => hev e (by simp [he])) x]
    rw [foldStep_covers result ex h.2 (hev ex (by simp)) x, covers_cons]
    constructor
    · rintro ⟨⟨hcur, hnex⟩, hnr⟩
      exact ⟨hcur, fun h => h.elim hnex hnr⟩
    · rintro ⟨hcur, hn⟩
      exact ⟨⟨hcur, fun h => hn (Or.inl h)⟩, fun h => hn (Or.inr h)⟩

theorem subtractIntervalsNaive_eq_fold (includes excludes : List Interval)
    (hinc : Canonical includes) (hev : ∀ e ∈ excludes, e.Valid)
    (hlen : ¬ excludes.length = 0) :
    subtractIntervalsNaive includes excludes =
      excludes.foldl (fun r ex => r.flatMap fun i => i.subtract ex) includes := by
  unfold subtractIntervalsNaive
  rw [if_neg hlen]
  exact List.mergeSort_of_sorted
    (canonical_pairwise_le (naiveFold_canonical excludes includes hinc hev))

theorem subtractIntervalsNaive_canonical (includes excludes : List Interval)
    (hinc : Canonical includes) (hev : ∀ e ∈ excludes, e.Valid) :
    Canonical (subtractIntervalsNaive includes excludes) := by
  by_cases hlen : excludes.length = 0
  · unfold subtractIntervalsNaive
    rw [if_pos hlen]
    exact hinc
  · rw [subtractIntervalsNaive_eq_fold includes excludes hinc hev hlen]
    exact naiveFold_canonical excludes includes hinc hev

theorem subtractIntervalsNaive_covers (includes excludes : List Interval)
    (hinc : Canonical includes) (hev : ∀ e ∈ excludes, e.Valid) (x : Int) :
    covers (subtractIntervalsNaive includes excludes) x ↔
      covers includes x ∧ ¬ covers excludes x := by
  by_cases hlen : excludes.length = 0
  · unfold subtractIntervalsNaive
    rw [if_pos hlen]
    have : excludes = [] := List.length_eq_zero.mp hlen
    subst this
    simp
  · rw [subtractIntervalsNaive_eq_fold includes excludes hinc hev hlen]
    exact naiveFold_covers excludes includes hinc hev x

/-! ### Claim-shaped canonical form -/

theorem canonical_claim_pairwise {l : List Interval} (h : Canonical l) :
    l.Pairwise fun a b =>
      Interval.le a b = true ∧ a.overlaps b = false ∧ a.isAdjacent b = false := by
  refine (chain_sep_pairwise l h.2 h.1).imp_of_mem ?_
  intro a b ha hb hr
  have hav := h.2 a ha
  have hbv := h.2 b hb
  unfold Interval.sep at hr
  unfold Interval.Valid at hav hbv
  refine ⟨sep_le hav hr, ?_, ?_⟩
  · simp only [Interval.overlaps, Bool.and_eq_false_iff, decide_eq_false_iff_not, not_le]
    omega
  · simp only [Interval.isAdjacent, Bool.or_eq_false_iff, decide_eq_false_iff_not]
    omega

theorem claim_pairwise_canonical {l : List Interval} (hv : ∀ i ∈ l, i.Valid)
    (hp : l.Pairwise fun a b =>
      Interval.le a b = true ∧ a.overlaps b = false ∧ a.isAdjacent b = false) :
    Canonical l := by
  refine ⟨List.Pairwise.chain' ?_, hv⟩
  refine hp.imp_of_mem ?_
  intro a b ha hb hr
  have hav := hv a ha
  have hbv := hv b hb
  rcases hr with ⟨hle, hov, hadj⟩
  rw [le_iff] at hle
  have hov' : ¬ (a.start ≤ b.stop ∧ b.start ≤ a.stop) := by
    rw [← overlaps_iff]
    simp [hov]
  have hadj' : ¬ (a.stop + 1 = b.start ∨ b.stop + 1 = a.start) := by
    rw [← isAdjacent_iff]
    simp [hadj]
  unfold Interval.sep
  unfold Interval.Valid at hav hbv
  omega

/-! ### The claims -/

/-- C1.  Coverage identity: for all collections of valid ranges, the set of
integers covered by `subtractIntervals (mergeIntervals includes) excludes`
equals the integers covered by `includes` minus the integers covered by
`excludes`. -/
theorem C1_coverage_identity (includes excludes : List Interval)
    (hinc : ∀ i ∈ includes, i.Valid) (hexc : ∀ e ∈ excludes, e.Valid) (x : Int) :
    covers (subtractIntervals (mergeIntervals includes) excludes) x ↔
      covers includes x ∧ ¬ covers excludes x := by
  rw [subtractIntervals_covers _ _ (mergeIntervals_canonical includes hinc) hexc x,
    mergeIntervals_covers includes hinc x]

theorem C1_coverage_identity_wit :
    covers (subtractIntervals (mergeIntervals [⟨10, 100⟩]) [⟨20, 30⟩]) 25 ↔
      covers [(⟨10, 100⟩ : Interval)] 25 ∧ ¬ covers [(⟨20, 30⟩ : Interval)] 25 :=
  C1_coverage_identity [⟨10, 100⟩] [⟨20, 30⟩] (by decide) (by decide) 25

/-- C2.  Canonical-form invariant: the output of the pipeline, and the
intermediate output of `mergeIntervals`, are sorted ascending by the
comparator order (start, then end) and no two distinct ranges in them
overlap or are adjacent. -/
theorem C2_canonical_invariant (includes excludes : List Interval)
    (hinc : ∀ i ∈ includes, i.Valid) (hexc : ∀ e ∈ excludes, e.Valid) :
    ((mergeIntervals includes).Pairwise fun a b =>
        Interval.le a b = true ∧ a.overlaps b = false ∧ a.isAdjacent b = false) ∧
    ((subtractIntervals (mergeIntervals includes) excludes).Pairwise fun a b =>
        Interval.le a b = true ∧ a.overlaps b = false ∧ a.isAdjacent b = false) :=
  ⟨canonical_claim_pairwise (mergeIntervals_canonical includes hinc),
   canonical_claim_pairwise
     (subtractIntervals_canonical _ excludes (mergeIntervals_canonical includes hinc) hexc)⟩

theorem C2_canonical_invariant_wit :
    ((mergeIntervals [⟨50, 5000⟩, ⟨10, 100⟩]).Pairwise fun a b =>
        Interval.le a b = true ∧ a.overlaps b = false ∧ a.isAdjacent b = false) ∧
    ((subtractIntervals (mergeIntervals [⟨50, 5000⟩, ⟨10, 100⟩]) [⟨20, 30⟩]).Pairwise
        fun a b =>
          Interval.le a b = true ∧ a.overlaps b = false ∧ a.isAdjacent b = false) :=
  C2_canonical_invariant [⟨50, 5000⟩, ⟨10, 100⟩] [⟨20, 30⟩] (by decide) (by decide)

/-- C3.  Subtract exhaustiveness: for valid ranges, `a.subtract b` covers
exactly the integers of `a` minus those of `b`, its pieces are mutually
disjoint, and each piece is valid. -/
theorem C3_subtract_exhaustive (a b : Interval) (ha : a.Valid) (hb : b.Valid) :
    (∀ x : Int, covers (a.subtract b) x ↔ Interval.mem x a ∧ ¬ Interval.mem x b) ∧
    ((a.subtract b).Pairwise fun p q => p.overlaps q = false) ∧
    (∀ p ∈ a.subtract b, p.Valid) := by
  refine ⟨subtract_covers a b ha hb, ?_, subtract_valid a b ha hb⟩
  refine (chain_sep_pairwise _ (subtract_valid a b ha hb) (subtract_chain a b ha hb)).imp_of_mem
    ?_
  intro p q hp hq hr
  unfold Interval.sep at hr
  simp only [Interval.overlaps, Bool.and_eq_false_iff, decide_eq_false_iff_not, not_le]
  have := subtract_valid a b ha hb q hq
  unfold Interval.Valid at this
  omega

theorem C3_subtract_exhaustive_wit :
    (∀ x : Int,
        covers (Interval.subtract ⟨10, 100⟩ ⟨20, 30⟩) x ↔
          Interval.mem x ⟨10, 100⟩ ∧ ¬ Interval.mem x ⟨20, 30⟩) ∧
    ((Interval.subtract ⟨10, 100⟩ ⟨20, 30⟩).Pairwise fun p q => p.overlaps q = false) ∧
    (∀ p ∈ Interval.subtract ⟨10, 100⟩ ⟨20, 30⟩, p.Valid) :=
  C3_subtract_exhaustive ⟨10, 100⟩ ⟨20, 30⟩ (by decide) (by decide)

/-- C4.  For collections of valid ranges the pipeline raises no error: the
catch branches of `mergeIntervals` (which absorb `merge` failures,
including the `notMergeable` throw) and of `Interval.subtract` (inside
`subtractIntervals`) are never reached. -/
theorem C4_never_throws (includes excludes : List Interval)
    (hinc : ∀ i ∈ includes, i.Valid) (hexc : ∀ e ∈ excludes, e.Valid) :
    mergeIntervalsCatch includes = false ∧
    subtractIntervalsCatch (mergeIntervals includes) excludes = false :=
  ⟨mergeIntervalsCatch_false includes hinc,
   subtractIntervalsCatch_false _ excludes (mergeIntervals_canonical includes hinc).2 hexc⟩

theorem C4_never_throws_wit :
    mergeIntervalsCatch [⟨200, 300⟩, ⟨10, 100⟩, ⟨400, 500⟩] = false ∧
    subtractIntervalsCatch (mergeIntervals [⟨200, 300⟩, ⟨10, 100⟩, ⟨400, 500⟩])
        [⟨410, 420⟩, ⟨95, 205⟩, ⟨100, 150⟩] = false :=
  C4_never_throws [⟨200, 300⟩, ⟨10, 100⟩, ⟨400, 500⟩] [⟨410, 420⟩, ⟨95, 205⟩, ⟨100, 150⟩]
    (by decide) (by decide)

/-- C5.  Merge contract: for valid ranges, `merge` returns the hull
`⟨min start, max end⟩` exactly when the two ranges overlap or are
adjacent, and raises `notMergeable` exactly otherwise. -/
theorem C5_merge_contract (a b : Interval) (ha : a.Valid) (hb : b.Valid) :
    ((a.overlaps b = true ∨ a.isAdjacent b = true) →
      a.merge b = .ok ⟨min a.start b.start, max a.stop b.stop⟩) ∧
    (a.overlaps b = false ∧ a.isAdjacent b = false →
      a.merge b = .error .notMergeable) :=
  ⟨merge_ok a b ha hb, fun h => merge_error a b h.1 h.2⟩

theorem C5_merge_contract_wit :
    (((⟨10, 20⟩ : Interval).overlaps ⟨15, 30⟩ = true ∨
        (⟨10, 20⟩ : Interval).isAdjacent ⟨15, 30⟩ = true) →
      (⟨10, 20⟩ : Interval).merge ⟨15, 30⟩ = .ok ⟨min 10 15, max 20 30⟩) ∧
    ((⟨10, 20⟩ : Interval).overlaps ⟨15, 30⟩ = false ∧
        (⟨10, 20⟩ : Interval).isAdjacent ⟨15, 30⟩ = false →
      (⟨10, 20⟩ : Interval).merge ⟨15, 30⟩ = .error .notMergeable) :=
  C5_merge_contract ⟨10, 20⟩ ⟨15, 30⟩ (by decide) (by decide)

/-- C6.  Constructor contract: `new Interval(start, end)` succeeds with
fields `start`/`end` exactly when `start ≤ end`, fails otherwise, and
every constructed interval satisfies the `start ≤ end` invariant. -/
theorem C6_constructor_contract (s e : Int) :
    (s ≤ e →
      Interval.new s e = some ⟨s, e⟩ ∧
        (⟨s, e⟩ : Interval).start = s ∧ (⟨s, e⟩ : Interval).stop = e) ∧
    (s > e → Interval.new s e = none) ∧
    (∀ i : Interval, Interval.new s e = some i → i.start ≤ i.stop) := by
  refine ⟨?_, ?_, ?_⟩
  · intro h
    exact ⟨(new_eq_some_iff s e ⟨s, e⟩).mpr ⟨h, rfl⟩, rfl, rfl⟩
  · intro h
    rw [new_eq_none_iff]
    omega
  · intro i hi
    rcases (new_eq_some_iff s e i).mp hi with ⟨h1, rfl⟩
    exact h1

theorem C6_constructor_contract_wit :
    Interval.new 3 7 = some ⟨3, 7⟩ ∧ Interval.new 7 3 = none :=
  ⟨((C6_constructor_contract 3 7).1 (by decide)).1,
   (C6_constructor_contract 7 3).2.1 (by decide)⟩

/-- C7.  The optimized subtraction phase agrees with the naive variant:
on a canonical includes sequence (sorted, pairwise non-overlapping and
non-adjacent, all valid) and any collection of valid excludes, both
return the same list of ranges in the same order. -/
theorem C7_subtract_equivalence (includes excludes : List Interval)
    (hincv : ∀ i ∈ includes, i.Valid)
    (hincp : includes.Pairwise fun a b =>
      Interval.le a b = true ∧ a.overlaps b = false ∧ a.isAdjacent b = false)
    (hexc : ∀ e ∈ excludes, e.Valid) :
    subtractIntervals includes excludes = subtractIntervalsNaive includes excludes := by
  have hcan : Canonical includes := claim_pairwise_canonical hincv hincp
  exact canonical_ext _ _
    (subtractIntervals_canonical includes excludes hcan hexc)
    (subtractIntervalsNaive_canonical includes excludes hcan hexc)
    (fun x => by
      rw [subtractIntervals_covers includes excludes hcan hexc x,
        subtractIntervalsNaive_covers includes excludes hcan hexc x])

theorem C7_subtract_equivalence_wit :
    subtractIntervals [⟨10, 100⟩, ⟨200, 300⟩] [⟨250, 400⟩, ⟨20, 30⟩] =
      subtractIntervalsNaive [⟨10, 100⟩, ⟨200, 300⟩] [⟨250, 400⟩, ⟨20, 30⟩] :=
  C7_subtract_equivalence [⟨10, 100⟩, ⟨200, 300⟩] [⟨250, 400⟩, ⟨20, 30⟩]
    (by decide) (by decide) (by decide)

/-- C8.  Idempotence: running the pipeline on its own output with an empty
exclude collection returns that output unchanged, same ranges in the same
order. -/
theorem C8_idempotence (includes excludes : List Interval)
    (hinc : ∀ i ∈ includes, i.Valid) (hexc : ∀ e ∈ excludes, e.Valid) :
    subtractIntervals
        (mergeIntervals (subtractIntervals (mergeIntervals includes) excludes)) [] =
      subtractIntervals (mergeIntervals includes) excludes := by
  have hcan := subtractIntervals_canonical _ excludes
    (mergeIntervals_canonical includes hinc) hexc
  have h1 : subtractIntervals
      (mergeIntervals (subtractIntervals (mergeIntervals includes) excludes)) [] =
      mergeIntervals (subtractIntervals (mergeIntervals includes) excludes) := rfl
  rw [h1, mergeIntervals_of_canonical _ hcan]

theorem C8_idempotence_wit :
    subtractIntervals
        (mergeIntervals (subtractIntervals (mergeIntervals [⟨200, 300⟩, ⟨50, 150⟩]) [⟨95, 205⟩]))
        [] =
      subtractIntervals (mergeIntervals [⟨200, 300⟩, ⟨50, 150⟩]) [⟨95, 205⟩] :=
  C8_idempotence [⟨200, 300⟩, ⟨50, 150⟩] [⟨95, 205⟩] (by decide) (by decide)

/-- C9.  `isAdjacent` holds exactly on a gap of zero, overlap and
adjacency are mutually exclusive, `overlaps` is symmetric, and touching
endpoints (`[10,20]`, `[20,30]`) count as overlapping. -/
theorem C9_overlap_adjacency (a b : Interval) :
    (a.isAdjacent b = true ↔ a.stop + 1 = b.start ∨ b.stop + 1 = a.start) ∧
    (¬ (a.overlaps b = true ∧ a.isAdjacent b = true)) ∧
    a.overlaps b = b.overlaps a ∧
    Interval.overlaps ⟨10, 20⟩ ⟨20, 30⟩ = true := by
  refine ⟨isAdjacent_iff a b, ?_, ?_, by decide⟩
  · rintro ⟨h1, h2⟩
    rw [overlaps_iff] at h1
    rw [isAdjacent_iff] at h2
    omega
  · unfold Interval.overlaps
    rw [Bool.and_comm]

/-! ### Heap model for the immutability claim

JS `Interval` objects are mutable heap records.  To state that the algebra
never mutates them, the same source code is embedded once more in
store-passing style: the heap is a list of `(start, end)` records, an
object reference is an index into it, and every operation is translated
statement by statement, returning the heap it leaves behind.  The JS
methods assign fields only in the constructor (modelled by `allocS`,
which appends a fresh cell); every other statement is a field read or a
pure computation, so its translation passes the heap through.
-/

/-- Read the cell a reference points at (out-of-range references return a
junk cell; they never arise in real runs). -/
def readS (σ : List Interval) (r : Nat) : Interval := σ.getD r ⟨0, 0⟩

/-- Models `new Interval(start, end)` on the heap: throw on `start > end`,
otherwise append a fresh cell whose fields are assigned from the
arguments and return its reference. -/
def allocS (σ : List Interval) (s e : Int) : Option (Nat × List Interval) :=
  if s > e then none else some (σ.length, σ ++ [⟨s, e⟩])

/-- Models `overlaps` on the heap: two field reads per object, no writes. -/
def overlapsS (σ : List Interval) (a other : Nat) : Bool × List Interval :=
  (decide ((readS σ a).start ≤ (readS σ other).stop) &&
    decide ((readS σ other).start ≤ (readS σ a).stop), σ)

/-- Models `contains` on the heap. -/
def containsS (σ : List Interval) (a other : Nat) : Bool × List Interval :=
  (decide ((readS σ a).start ≤ (readS σ other).start) &&
    decide ((readS σ a).stop ≥ (readS σ other).stop), σ)

/-- Models `isAdjacent` on the heap. -/
def isAdjacentS (σ : List Interval) (a other : Nat) : Bool × List Interval :=
  (decide ((readS σ a).stop + 1 = (readS σ other).start) ||
    decide ((readS σ other).stop + 1 = (readS σ a).start), σ)

/-- Models `merge` on the heap: guard by the two predicates, then allocate the
hull (the inner catch re-throws, allocating nothing). -/
def mergeS (σ : List Interval) (a other : Nat) :
    Except IntervalError Nat × List Interval :=
  if !(overlapsS σ a other).1 && !(isAdjacentS σ a other).1 then
    (.error .notMergeable, σ)
  else
    match allocS σ (min (readS σ a).start (readS σ other).start)
        (max (readS σ a).stop (readS σ other).stop) with
    | some (r, σ') => (.ok r, σ')
    | none => (.error .mergeFailed, σ)

/-- Models `subtract` on the heap: the four-case analysis, allocating the result
pieces; a constructor throw inside a `try` returns the catch fallback
with the allocations made so far kept in the heap. -/
def subtractS (σ : List Interval) (a exclude : Nat) : List Nat × List Interval :=
  if !(overlapsS σ a exclude).1 then
    ([a], σ)
  else if (containsS σ exclude a).1 then
    ([], σ)
  else if decide ((readS σ exclude).start > (readS σ a).start) &&
      decide ((readS σ exclude).stop < (readS σ a).stop) then
    match allocS σ (readS σ a).start ((readS σ exclude).start - 1) with
    | none => ([a], σ)
    | some (r1, σ1) =>
      match allocS σ1 ((readS σ1 exclude).stop + 1) (readS σ1 a).stop with
      | none => ([a], σ1)
      | some (r2, σ2) => ([r1, r2], σ2)
  else if decide ((readS σ exclude).start ≤ (readS σ a).start) &&
      decide ((readS σ exclude).stop < (readS σ a).stop) then
    match allocS σ ((readS σ exclude).stop + 1) (readS σ a).stop with
    | none => ([], σ)
    | some (r, σ') => ([r], σ')
  else if decide ((readS σ exclude).start > (readS σ a).start) &&
      decide ((readS σ exclude).stop ≥ (readS σ a).stop) then
    match allocS σ (readS σ a).start ((readS σ exclude).start - 1) with
    | none => ([], σ)
    | some (r, σ') => ([r], σ')
  else
    ([], σ)

/-- The comparator on the heap (reads only). -/
def compareS (σ : List Interval) (a b : Nat) : Int :=
  if (readS σ a).start ≠ (readS σ b).start then (readS σ a).start - (readS σ b).start
  else (readS σ a).stop - (readS σ b).stop

/-- The `mergeIntervals` walk on the heap. -/
def mergeWalkS (σ : List Interval) (current : Nat) : List Nat → List Nat × List Interval
  | [] => ([current], σ)
  | next :: rest =>
    if (overlapsS σ current next).1 || (isAdjacentS σ current next).1 then
      match mergeS σ current next with
      | (.ok m, σ') => mergeWalkS σ' m rest
      | (.error _, σ') =>
        let r := mergeWalkS σ' next rest
        (current :: r.1, r.2)
    else
      let r := mergeWalkS σ next rest
      (current :: r.1, r.2)

/-- Models `mergeIntervals` on the heap: `[...intervals]` copies the reference
array, so the sort never touches the heap or the caller's array. -/
def mergeIntervalsS (σ : List Interval) (intervals : List Nat) :
    List Nat × List Interval :=
  if intervals.length ≤ 1 then (intervals, σ)
  else
    match intervals.mergeSort (fun r1 r2 => decide (compareS σ r1 r2 ≤ 0)) with
    | [] => ([], σ)
    | c :: rest => mergeWalkS σ c rest

/-- Models `current.flatMap(...)` of the optimized subtraction on the heap. -/
def subtractPiecesS (σ : List Interval) (ex : Nat) : List Nat → List Nat × List Interval
  | [] => ([], σ)
  | i :: rest =>
    let r1 := if (overlapsS σ i ex).1 then subtractS σ i ex else ([i], σ)
    let r2 := subtractPiecesS r1.2 ex rest
    (r1.1 ++ r2.1, r2.2)

/-- The per-include exclude scan of the optimized subtraction on the heap. -/
def applyExcludesS (σ : List Interval) (inc : Nat) (current : List Nat) :
    List Nat → List Nat × List Interval
  | [] => (current, σ)
  | ex :: rest =>
    if decide ((readS σ ex).start > (readS σ inc).stop) then (current, σ)
    else if decide ((readS σ ex).stop < (readS σ inc).start) then
      applyExcludesS σ inc current rest
    else
      let r1 := subtractPiecesS σ ex current
      applyExcludesS r1.2 inc r1.1 rest

/-- The include loop of the optimized subtraction on the heap. -/
def includesLoopS (sortedEx : List Nat) :
    List Interval → List Nat → List Nat × List Interval
  | σ, [] => ([], σ)
  | σ, inc :: rest =>
    let r1 := applyExcludesS σ inc [inc] sortedEx
    let r2 := includesLoopS sortedEx r1.2 rest
    (r1.1 ++ r2.1, r2.2)

/-- Models `subtractIntervals` on the heap (`[...excludes]` copies the array
before sorting). -/
def subtractIntervalsS (σ : List Interval) (includes excludes : List Nat) :
    List Nat × List Interval :=
  if excludes.length = 0 then (includes, σ)
  else
    includesLoopS (excludes.mergeSort fun r1 r2 => decide (compareS σ r1 r2 ≤ 0))
      σ includes

/-! ### Frame lemmas: every operation only extends the heap -/

theorem prefix_readS {σ σ' : List Interval} (h : σ <+: σ') {r : Nat}
    (hr : r < σ.length) : readS σ' r = readS σ r := by
  rcases h with ⟨t, rfl⟩
  unfold readS
  exact List.getD_append σ t ⟨0, 0⟩ r hr

theorem allocS_frame {σ σ' : List Interval} {s e : Int} {r : Nat}
    (h : allocS σ s e = some (r, σ')) : σ <+: σ' := by
  unfold allocS at h
  split at h
  · simp at h
  · rw [Option.some_inj] at h
    cases h
    exact List.prefix_append σ _

theorem mergeS_frame (σ : List Interval) (a b : Nat) : σ <+: (mergeS σ a b).2 := by
  unfold mergeS
  split
  · exact List.prefix_rfl
  · split
    · rename_i r σ' heq
      exact allocS_frame heq
    · exact List.prefix_rfl

theorem subtractS_frame (σ : List Interval) (a b : Nat) : σ <+: (subtractS σ a b).2 := by
  unfold subtractS
  split
  · exact List.prefix_rfl
  · split
    · exact List.prefix_rfl
    · split
      · split
        · exact List.prefix_rfl
        · rename_i r1 σ1 heq1
          split
          · exact allocS_frame heq1
          · rename_i r2 σ2 heq2
            exact (allocS_frame heq1).trans (allocS_frame heq2)
      · split
        · split
          · exact List.prefix_rfl
          · rename_i r σ' heq
            exact allocS_frame heq
        · split
          · split
            · exact List.prefix_rfl
            · rename_i r σ' heq
              exact allocS_frame heq
          · exact List.prefix_rfl

theorem mergeWalkS_frame :
    ∀ (rest : List Nat) (σ : List Interval) (current : Nat),
      σ <+: (mergeWalkS σ current rest).2
  | [], σ, current => List.prefix_rfl
  | next :: rest, σ, current => by
    rw [mergeWalkS]
    split
    · rcases hm : mergeS σ current next with ⟨res, σ'⟩
      have h1 : σ <+: σ' := by
        have := mergeS_frame σ current next
        rw [hm] at this
        exact this
      match res, hm with
      | .ok m, hm =>
        exact h1.trans (mergeWalkS_frame rest σ' m)
      | .error e, hm =>
        exact h1.trans (mergeWalkS_frame rest σ' next)
    · exact mergeWalkS_frame rest σ next

theorem mergeIntervalsS_frame (σ : List Interval) (intervals : List Nat) :
    σ <+: (mergeIntervalsS σ intervals).2 := by
  unfold mergeIntervalsS
  split
  · exact List.prefix_rfl
  · split
    · exact List.prefix_rfl
    · exact mergeWalkS_frame _ σ _

theorem subtractPiecesS_frame :
    ∀ (pieces : List Nat) (σ : List Interval) (ex : Nat),
      σ <+: (subtractPiecesS σ ex pieces).2
  | [], σ, ex => List.prefix_rfl
  | i :: rest, σ, ex => by
    rw [subtractPiecesS]
    have h1 : σ <+: (if (overlapsS σ i ex).1 then subtractS σ i ex else ([i], σ)).2 := by
      split
      · exact subtractS_frame σ i ex
      · exact List.prefix_rfl
    exact h1.trans (subtractPiecesS_frame rest _ ex)

theorem applyExcludesS_frame :
    ∀ (exs : List Nat) (σ : List Interval) (inc : Nat) (current : List Nat),
      σ <+: (applyExcludesS σ inc current exs).2
  | [], σ, inc, current => List.prefix_rfl
  | ex :: rest, σ, inc, current => by
    rw [applyExcludesS]
    split
    · exact List.prefix_rfl
    · split
      · exact applyExcludesS_frame rest σ inc current
      · exact (subtractPiecesS_frame current σ ex).trans
          (applyExcludesS_frame rest _ inc _)

theorem includesLoopS_frame :
    ∀ (incs : List Nat) (σ : List Interval) (sortedEx : List Nat),
      σ <+: (includesLoopS sortedEx σ incs).2
  | [], σ, sortedEx => List.prefix_rfl
  | inc :: rest, σ, sortedEx => by
    rw [includesLoopS]
    exact (applyExcludesS_frame sortedEx σ inc [inc]).trans
      (includesLoopS_frame rest _ sortedEx)

theorem subtractIntervalsS_frame (σ : List Interval) (includes excludes : List Nat) :
    σ <+: (subtractIntervalsS σ includes excludes).2 := by
  unfold subtractIntervalsS
  split
  · exact List.prefix_rfl
  · exact includesLoopS_frame includes σ _

/-- C10.  No mutation: the predicate methods return the heap untouched;
`merge`, `subtract`, `mergeIntervals` and `subtractIntervals` only append
freshly constructed cells, so the `start`/`end` fields of every
pre-existing `Interval` object — in particular the receiver, the
argument, and every member of the input arrays — read the same after the
call, and the reference lists passed in are returned unmodified values. -/
theorem C10_no_mutation (σ : List Interval) (a b : Nat)
    (intervals includes excludes : List Nat) :
    (overlapsS σ a b).2 = σ ∧ (containsS σ a b).2 = σ ∧ (isAdjacentS σ a b).2 = σ ∧
    σ <+: (mergeS σ a b).2 ∧ σ <+: (subtractS σ a b).2 ∧
    σ <+: (mergeIntervalsS σ intervals).2 ∧
    σ <+: (subtractIntervalsS σ includes excludes).2 ∧
    (∀ r : Nat, r < σ.length →
      readS (mergeS σ a b).2 r = readS σ r ∧
      readS (subtractS σ a b).2 r = readS σ r ∧
      readS (mergeIntervalsS σ intervals).2 r = readS σ r ∧
      readS (subtractIntervalsS σ includes excludes).2 r = readS σ r) := by
  refine ⟨rfl, rfl, rfl, mergeS_frame σ a b, subtractS_frame σ a b,
    mergeIntervalsS_frame σ intervals, subtractIntervalsS_frame σ includes excludes,
    ?_⟩
  intro r hr
  exact ⟨prefix_readS (mergeS_frame σ a b) hr,
    prefix_readS (subtractS_frame σ a b) hr,
    prefix_readS (mergeIntervalsS_frame σ intervals) hr,
    prefix_readS (subtractIntervalsS_frame σ includes excludes) hr⟩

theorem C10_no_mutation_wit :
    (overlapsS [⟨10, 100⟩, ⟨20, 30⟩] 0 1).2 = [⟨10, 100⟩, ⟨20, 30⟩] ∧
    (containsS [⟨10, 100⟩, ⟨20, 30⟩] 0 1).2 = [⟨10, 100⟩, ⟨20, 30⟩] ∧
    (isAdjacentS [⟨10, 100⟩, ⟨20, 30⟩] 0 1).2 = [⟨10, 100⟩, ⟨20, 30⟩] ∧
    [⟨10, 100⟩, ⟨20, 30⟩] <+: (mergeS [⟨10, 100⟩, ⟨20, 30⟩] 0 1).2 ∧
    [⟨10, 100⟩, ⟨20, 30⟩] <+: (subtractS [⟨10, 100⟩, ⟨20, 30⟩] 0 1).2 ∧
    [⟨10, 100⟩, ⟨20, 30⟩] <+: (mergeIntervalsS [⟨10, 100⟩, ⟨20, 30⟩] [0, 1]).2 ∧
    [⟨10, 100⟩, ⟨20, 30⟩] <+: (subtractIntervalsS [⟨10, 100⟩, ⟨20, 30⟩] [0] [1]).2 ∧
    (∀ r : Nat, r < ([⟨10, 100⟩, ⟨20, 30⟩] : List Interval).length →
      readS (mergeS [⟨10, 100⟩, ⟨20, 30⟩] 0 1).2 r = readS [⟨10, 100⟩, ⟨20, 30⟩] r ∧
      readS (subtractS [⟨10, 100⟩, ⟨20, 30⟩] 0 1).2 r = readS [⟨10, 100⟩, ⟨20, 30⟩] r ∧
      readS (mergeIntervalsS [⟨10, 100⟩, ⟨20, 30⟩] [0, 1]).2 r =
        readS [⟨10, 100⟩, ⟨20, 30⟩] r ∧
      readS (subtractIntervalsS [⟨10, 100⟩, ⟨20, 30⟩] [0] [1]).2 r =
        readS [⟨10, 100⟩, ⟨20, 30⟩] r) :=
  C10_no_mutation [⟨10, 100⟩, ⟨20, 30⟩] 0 1 [0, 1] [0] [1]

end IntervalProc
